import Mathlib

/-!
Verification of the zelda64 DMA-table and decompression core.

The development shallowly embeds the Rust sources:
  * `src/src/dma.rs`   — `Entry`, classification, validation, table discovery
    and the self-referential parse loop (`Table::find`).
  * `src/src/util.rs`  — `read_until`, `get_align` / `align_forward`.
  * `src/zelda64-rs/src/decompress.rs` — `decompress_rom` with its two
    addressing policies (matching / compact "squeeze").
  * `src/zelda64-rs/src/rom.rs` — `Rom::slice`, `Rom::patch`, `Rom::read`,
    `Rom::update_table_data`.
  * `src/zelda64-rs/src/util.rs` — `align16`.
  * `src/n64rom-rs/src/rom.rs`  — the container contract (`data_mut`,
    `full`, `HEAD_SIZE`).

Machine integers are modelled as `Nat` with explicit `% 2^32` (resp. `% 2^64`)
where u32 (resp. usize) wrap-around matters; Rust release-mode wrapping
semantics are used.  Byte buffers are `List Nat`.  Fallible operations return
`Except`; operations that can panic (slice indexing out of bounds,
`Option::unwrap`, `copy_from_slice` length mismatch, `unreachable!`) return
`Option`, with `none` marking a panic.

The crate `zelda64-rs` declares `pub mod dma;` but the file
`zelda64-rs/src/dma.rs` is not among the available sources; the handful of
items it must provide (`Entry::range_usize`, `Entry::from_uncompressed`,
`Table { address, entries }`, `Table::size`/`write`, `Table::find`) are
modelled from the specification and marked `Modelled from the spec:` below.
Their observable semantics for `Entry` coincide with the sibling crate
`src/src/dma.rs`, which is embedded from source.
-/

namespace Zelda64

/-- Table entry size (`ENTRY_SIZE` in dma.rs). -/
def ENTRY_SIZE : Nat := 0x10

/-- Table header size (`HEADER_SIZE` in dma.rs). -/
def HEADER_SIZE : Nat := 0x30

/-- Table structure alignment (`TABLE_ALIGN` in dma.rs). -/
def TABLE_ALIGN : Nat := 0x10

/-- Table header magic bytes, ASCII of the nine characters z e l d a @ s r d. -/
def TABLE_MAGIC : List Nat := [0x7A, 0x65, 0x6C, 0x64, 0x61, 0x40, 0x73, 0x72, 0x64]

/-- Number of values of a u32. -/
def U32_SIZE : Nat := 2 ^ 32

/-- Largest u32 value (`::std::u32::MAX`). -/
def U32_MAX : Nat := 2 ^ 32 - 1

/-- Number of values of a usize (64-bit target). -/
def U64_SIZE : Nat := 2 ^ 64

/-- Modelled from the spec: `n64rom::rom::HEAD_SIZE = Header::SIZE + IPL_SIZE`.
The defining files (`n64rom-rs/src/header.rs`, `ipl3.rs`) are not among the
available sources; `src/src/decompress.rs` documents the head region as "the
first 0x1000 bytes of rom (N64 rom header & IPL)", fixing the constant. -/
def HEAD_SIZE : Nat := 0x1000

/-- Decompressed rom capacity, 64 MiB (`ROM_CAPACITY` in decompress.rs). -/
def ROM_CAPACITY : Nat := 1024 * 1024 * 64

/-- Wrapping usize subtraction (release-mode `a - b` on u64), for operands below `2^64`. -/
def wsub64 (a b : Nat) : Nat := (U64_SIZE + a - b) % U64_SIZE

/-- Mapping axis tag carried by `Error::InvalidRange` (dma.rs `Mapping`). -/
inductive Mapping where
  | physical
  | virtual
deriving DecidableEq, Repr

/-- Version tag of the table sub-header (dma.rs `Version`). -/
inductive Version where
  | srd022j
  | srd44
  | unknown (bytes : List Nat)
deriving DecidableEq, Repr

/-- Errors of the dma module (dma.rs `Error`); `ioError` stands for the
`IOError` variant wrapping any `std::io::Error`. -/
inductive DmaError where
  | ioError
  | invalidHeader
  | invalidRange (m : Mapping) (r : Nat × Nat)
  | unknownVersion (v : Version)
deriving DecidableEq, Repr

instance {ε α : Type} [DecidableEq ε] [DecidableEq α] :
    DecidableEq (Except ε α) := fun x y =>
  match x, y with
  | .ok a, .ok b =>
    if h : a = b then .isTrue (by rw [h]) else
      .isFalse (by intro hc; cases hc; exact h rfl)
  | .error a, .error b =>
    if h : a = b then .isTrue (by rw [h]) else
      .isFalse (by intro hc; cases hc; exact h rfl)
  | .ok _, .error _ => .isFalse (by intro hc; cases hc)
  | .error _, .ok _ => .isFalse (by intro hc; cases hc)

/-- Classification of a table entry (dma.rs `EntryType`). -/
inductive EntryType where
  | compressed
  | decompressed
  | doesNotExist
  | empty
deriving DecidableEq, Repr

/-- A DMA table entry: four u32 fields (dma.rs `Entry`). -/
structure Entry where
  virtualStart : Nat
  virtualEnd : Nat
  physicalStart : Nat
  physicalEnd : Nat
deriving DecidableEq, Repr

/-- The length of a `Range<u32>` (`Iterator::len`): zero when the range is empty. -/
def rangeLen (r : Nat × Nat) : Nat := r.2 - r.1

namespace Entry

/-- `Entry::to_vec`: the four fields in order. -/
def toVec (e : Entry) : List Nat :=
  [e.virtualStart, e.virtualEnd, e.physicalStart, e.physicalEnd]

/-- `Entry::virt`: virtual start and end addresses. -/
def virt (e : Entry) : Nat × Nat := (e.virtualStart, e.virtualEnd)

/-- `Entry::phys`: physical start and end addresses. -/
def phys (e : Entry) : Nat × Nat := (e.physicalStart, e.physicalEnd)

/-- `Entry::kind`: derived classification. -/
def kind (e : Entry) : EntryType :=
  if e.toVec.all (fun x => x == 0) then .empty
  else if e.phys.1 = U32_MAX ∧ e.phys.2 = U32_MAX then .doesNotExist
  else if e.phys.2 = 0 then .decompressed
  else .compressed

/-- `Entry::real_phys`: the "real" physical address range.  For a
`Decompressed` entry the end is `physical_start + virt().len() as u32`,
a wrapping u32 addition. -/
def realPhys (e : Entry) : Option (Nat × Nat) × EntryType :=
  match e.kind with
  | .compressed => (some e.phys, .compressed)
  | .decompressed =>
      (some (e.physicalStart,
             (e.physicalStart + rangeLen e.virt % U32_SIZE) % U32_SIZE),
       .decompressed)
  | k => (none, k)

/-- `Entry::validate`: virtual range, real physical range and kind, or an
`InvalidRange` error when start exceeds end on either axis. -/
def validate (e : Entry) :
    Except DmaError ((Nat × Nat) × Option (Nat × Nat) × EntryType) :=
  let v := e.virt
  match e.realPhys with
  | (p?, k) =>
    if v.1 > v.2 then .error (.invalidRange .virtual v)
    else
      match p? with
      | some p =>
          if p.1 > p.2 then .error (.invalidRange .physical p)
          else .ok (v, some p, k)
      | none => .ok (v, none, k)

end Entry

/-- Big-endian decoding of four bytes into a u32 (`read_u32::<BigEndian>`). -/
def beU32 (b0 b1 b2 b3 : Nat) : Nat :=
  b0 * 0x1000000 + b1 * 0x10000 + b2 * 0x100 + b3

/-- `Entry::read` at a byte position of a buffer: four consecutive big-endian
u32 reads; `none` models the `io::Error` (unexpected end of stream) raised
when fewer than 16 bytes remain. -/
def readEntryAt (img : List Nat) (pos : Nat) : Option Entry :=
  if pos + 16 ≤ img.length then
    some
      { virtualStart :=
          beU32 (img.getD pos 0) (img.getD (pos+1) 0) (img.getD (pos+2) 0) (img.getD (pos+3) 0)
        virtualEnd :=
          beU32 (img.getD (pos+4) 0) (img.getD (pos+5) 0) (img.getD (pos+6) 0) (img.getD (pos+7) 0)
        physicalStart :=
          beU32 (img.getD (pos+8) 0) (img.getD (pos+9) 0) (img.getD (pos+10) 0) (img.getD (pos+11) 0)
        physicalEnd :=
          beU32 (img.getD (pos+12) 0) (img.getD (pos+13) 0) (img.getD (pos+14) 0) (img.getD (pos+15) 0) }
  else none

theorem readEntryAt_bound {img : List Nat} {pos : Nat} {e : Entry}
    (h : readEntryAt img pos = some e) : pos + 16 ≤ img.length := by
  by_contra hc
  simp [readEntryAt, hc] at h

/-- The entry-accumulating loop of `Table::find` (dma.rs lines 365-386).
`begin` is the table virtual begin address, `current` the byte cursor,
`endO` the optional stopping boundary, `acc` the entries collected so far.
Reading an entry past the end of the buffer models the `io::Error` of
`Entry::read`. -/
def parseLoop (img : List Nat) (begin : Nat) (current : Nat)
    (endO : Option Nat) (acc : List Entry) : Except DmaError (List Entry) :=
  match h : readEntryAt img current with
  | none => .error .ioError
  | some entry =>
    let endO2 : Option Nat :=
      if entry.virtualStart = begin then some (wsub64 entry.virtualEnd HEAD_SIZE)
      else endO
    match endO2 with
    | some e =>
        if current ≥ e then .ok acc
        else parseLoop img begin (current + ENTRY_SIZE) endO2 (acc ++ [entry])
    | none => parseLoop img begin (current + ENTRY_SIZE) endO2 (acc ++ [entry])
termination_by img.length - current
decreasing_by
  all_goals
    have := readEntryAt_bound h
    simp [ENTRY_SIZE]
    omega

/-- The signature scan of `Table::find_offset`: seek to `off`, read up to nine
bytes (a `Cursor` read yields `min 9 (len - off)` bytes), compare against
`TABLE_MAGIC`; on mismatch advance by `TABLE_ALIGN`; when fewer than nine
bytes remain, stop with no table found. -/
def findOffsetGo (img : List Nat) (off : Nat) : Option Nat :=
  if h : off + 9 ≤ img.length then
    if (img.drop off).take 9 = TABLE_MAGIC then some off
    else findOffsetGo img (off + TABLE_ALIGN)
  else none
termination_by img.length - off
decreasing_by
  simp [TABLE_ALIGN]
  omega

/-- `Table::find_offset` over an in-memory buffer.  Seeks and reads on a
`Cursor` cannot fail, so the `io::Error` path of the stream is vacuous and the
result is always `ok`. -/
def findOffset (img : List Nat) : Except DmaError (Option Nat) :=
  .ok (findOffsetGo img 0)

/-- `read_exact` of `n` bytes at position `pos`: the bytes, or the end-of-input
`io::Error`. -/
def readExact (img : List Nat) (pos n : Nat) : Except DmaError (List Nat) :=
  if pos + n ≤ img.length then .ok ((img.drop pos).take n) else .error .ioError

/-- `util::read_until` specialised as `Header::parse` uses it: read single
bytes looking for a zero, at most `maximum` bytes; returns whether the zero
was found, the bytes collected before it, and the cursor position after the
last byte read. -/
def readUntil0 (bytes : List Nat) : Nat → Nat → List Nat →
    Except DmaError (Bool × List Nat × Nat)
  | 0, pos, acc => .ok (false, acc, pos)
  | m + 1, pos, acc =>
    match bytes.get? pos with
    | none => .error .ioError
    | some b =>
      if b = 0 then .ok (true, acc, pos + 1)
      else readUntil0 bytes m (pos + 1) (acc ++ [b])

/-- ASCII bytes of the version tag z e l d a @ s r d 0 2 2 j. -/
def MAGIC_SRD022J : List Nat :=
  [0x7A, 0x65, 0x6C, 0x64, 0x61, 0x40, 0x73, 0x72, 0x64, 0x30, 0x32, 0x32, 0x6A]

/-- ASCII bytes of the version tag z e l d a @ s r d 4 4. -/
def MAGIC_SRD44 : List Nat :=
  [0x7A, 0x65, 0x6C, 0x64, 0x61, 0x40, 0x73, 0x72, 0x64, 0x34, 0x34]

/-- `Version::from`: match the magic bytes against the two known tags. -/
def versionFrom (bytes : List Nat) : Version :=
  if bytes = MAGIC_SRD022J then .srd022j
  else if bytes = MAGIC_SRD44 then .srd44
  else .unknown bytes

/-- `Version::read_build_date` over the header byte window, starting at cursor
position `pos` (just past the null terminator of the magic).  For `Srd022J`
the cursor is aligned forward to `TABLE_ALIGN` and 0x20 bytes are read; for
`Srd44` `align(current) + 0x20` bytes are read in place.  `get_align` returns
`align - pos % align` (a full `align` step when already aligned). -/
def readBuildDate (v : Version) (bytes : List Nat) (pos : Nat) :
    Except DmaError (List Nat) :=
  match v with
  | .srd022j =>
    let pos2 := pos + (TABLE_ALIGN - pos % TABLE_ALIGN)
    match readExact bytes pos2 0x20 with
    | .error e => .error e
    | .ok raw => .ok (raw.takeWhile (fun x => x ≠ 0))
  | .srd44 =>
    let extra := TABLE_ALIGN - pos % TABLE_ALIGN
    match readExact bytes pos (0x20 + extra) with
    | .error e => .error e
    | .ok raw => .ok (raw.takeWhile (fun x => x ≠ 0))
  | .unknown _ => .ok []

/-- Table sub-header (dma.rs `Header`): version plus build-date bytes. -/
structure Header where
  version : Version
  buildDate : List Nat
deriving DecidableEq, Repr

/-- `Header::parse` from the `HEADER_SIZE`-byte window: find the
null-terminated magic, resolve the version (unknown tags are a hard
`UnknownVersion` error), then read the build date. -/
def headerParse (bytes : List Nat) : Except DmaError Header :=
  match readUntil0 bytes TABLE_ALIGN 0 [] with
  | .error e => .error e
  | .ok (false, _, _) => .error .invalidHeader
  | .ok (true, magic, pos) =>
    match hv : versionFrom magic with
    | .unknown v => .error (.unknownVersion (.unknown v))
    | .srd022j =>
      match readBuildDate .srd022j bytes pos with
      | .error e => .error e
      | .ok raw => .ok ⟨.srd022j, raw.takeWhile (fun x => x ≠ 0)⟩
    | .srd44 =>
      match readBuildDate .srd44 bytes pos with
      | .error e => .error e
      | .ok raw => .ok ⟨.srd44, raw.takeWhile (fun x => x ≠ 0)⟩

/-- `Table::find_header`: locate the table offset, then read and parse the
`HEADER_SIZE`-byte sub-header there. -/
def findHeader (img : List Nat) : Except DmaError (Option (Header × Nat)) :=
  match findOffsetGo img 0 with
  | none => .ok none
  | some off =>
    match readExact img off HEADER_SIZE with
    | .error e => .error e
    | .ok hbytes =>
      match headerParse hbytes with
      | .error e => .error e
      | .ok hdr => .ok (some (hdr, off))

/-- A parsed DMA table (dma.rs `Table`): sub-header plus ordered entries. -/
structure Table where
  header : Header
  entries : List Entry
deriving DecidableEq, Repr

/-- `Table::find`: discovery, header parsing, then the self-terminating entry
loop starting at `offset + HEADER_SIZE`, with the table begin virtual address
`rom::HEAD_SIZE + current`. -/
def tableFind (img : List Nat) : Except DmaError (Option (Table × Nat)) :=
  match findHeader img with
  | .error e => .error e
  | .ok none => .ok none
  | .ok (some (hdr, offset)) =>
    let current := offset + HEADER_SIZE
    let begin := HEAD_SIZE + current
    match parseLoop img begin current none [] with
    | .error e => .error e
    | .ok entries => .ok (some (⟨hdr, entries⟩, offset))

/-- `util::align16` of zelda64-rs: `(value + 0xF) & !0xF` on u32.  The wrapping
addition is the explicit `% U32_SIZE`; masking with `!0xF` clears the four low
bits, which on naturals below `2^32` is division and multiplication by 16. -/
def align16 (value : Nat) : Nat :=
  ((value + 0xF) % U32_SIZE) / 16 * 16

/-- The n64rom container (`n64rom::rom::Rom`).  Only the full byte image is
modelled; header, IPL3 and byte order are external collaborator state carried
through unchanged by the core. -/
structure N64Rom where
  image : List Nat
deriving DecidableEq, Repr

/-- `N64Rom::full`: the full image bytes. -/
def N64Rom.full (r : N64Rom) : List Nat := r.image

/-- `N64Rom::data`: the image bytes past the head region (`image[HEAD_SIZE..]`). -/
def N64Rom.data (r : N64Rom) : List Nat := r.image.drop HEAD_SIZE

/-- Modelled from the spec: the zelda64-rs `Table` (its `dma.rs` is not among
the sources).  It carries the byte offset at which the table was discovered
(`address`, read by `Rom::update_table_data` and the CLI) plus the ordered
entries. -/
structure ZTable where
  address : Nat
  entries : List Entry
deriving DecidableEq, Repr

/-- The zelda64-rs `Rom`: underlying container plus optional table. -/
structure ZRom where
  rom : N64Rom
  table : Option ZTable
deriving DecidableEq, Repr

/-- Modelled from the spec: zelda64-rs `Entry::range_usize`, the real physical
range converted to usize (exact for u32 values) together with the kind. -/
def Entry.rangeUsize (e : Entry) : Option (Nat × Nat) × EntryType := e.realPhys

/-- Modelled from the spec: zelda64-rs `Entry::from_uncompressed`, building the
output-table entry with unchanged virtual range, the given physical start and
`physical_end = 0`. -/
def Entry.fromUncompressed (vs ve ps : Nat) : Entry := ⟨vs, ve, ps, 0⟩

/-- The slice of a buffer at an entry real physical range, as taken by
`Rom::slice` via `&full()[range]`: `none` models the two panics of that
function (`range.unwrap()` on a rangeless entry, and slice indexing when the
range exceeds the buffer or has start above end). -/
def sliceImage (img : List Nat) (e : Entry) : Option (List Nat) :=
  match e.rangeUsize.1 with
  | none => none
  | some range =>
    if range.1 ≤ range.2 ∧ range.2 ≤ img.length then
      some ((img.drop range.1).take (range.2 - range.1))
    else none

/-- zelda64-rs `Rom::slice`. -/
def ZRom.slice (r : ZRom) (e : Entry) : Option (List Nat) :=
  sliceImage r.rom.full e

/-- Errors of zelda64-rs `decompress::Error`.  `dmaError` wraps the dma-module
error, `outOfRange` carries the offending output range, `codecError` stands
for the external Yaz0 decompression failure. -/
inductive DecompressError where
  | dmaError (e : DmaError)
  | outOfRange (r : Nat × Nat)
  | codecError
deriving DecidableEq, Repr

/-- The per-entry loop of `decompress_rom` (decompress.rs lines 57-90).
`codec input destLen` abstracts the external Yaz0 collaborator
(`Yaz0Archive::new` + `decompress_into` into a destination of length
`destLen`), `none` being its error.  The write journal `accW` records each
`(output start, bytes)` stored into the 64 MiB arena.  `none` overall models a
panic: `Rom::slice` out of range, `copy_from_slice` length mismatch, or the
`unreachable!` arm. -/
def decompressGo (codec : List Nat → Nat → Option (List Nat)) (img : List Nat)
    (matching : Bool) :
    List Entry → Nat → List Entry → List (Nat × List Nat) →
    Option (Except DecompressError (List Entry × List (Nat × List Nat)))
  | [], _, accE, accW => some (.ok (accE, accW))
  | e :: rest, offset, accE, accW =>
    match e.validate with
    | .error err => some (.error (.dmaError err))
    | .ok (v, p?, kind) =>
      match p? with
      | none => decompressGo codec img matching rest offset (accE ++ [e]) accW
      | some _ =>
        match sliceImage img e with
        | none => none
        | some input =>
          let len16 := align16 (rangeLen v % U32_SIZE)
          let outrange : Nat × Nat :=
            if matching then v else (offset, (offset + len16) % U32_SIZE)
          let offset2 : Nat :=
            if matching then offset else (offset + len16) % U32_SIZE
          if outrange.1 ≤ outrange.2 ∧ outrange.2 ≤ ROM_CAPACITY then
            let e2 := Entry.fromUncompressed v.1 v.2 outrange.1
            match kind with
            | .compressed =>
              match codec input (outrange.2 - outrange.1) with
              | none => some (.error .codecError)
              | some bs =>
                decompressGo codec img matching rest offset2
                  (accE ++ [e2]) (accW ++ [(outrange.1, bs)])
            | .decompressed =>
              if input.length = outrange.2 - outrange.1 then
                decompressGo codec img matching rest offset2
                  (accE ++ [e2]) (accW ++ [(outrange.1, input)])
              else none
            | _ => none
          else some (.error (.outOfRange outrange))

/-- `decompress_rom` (decompress.rs).  `matching = true` is the matching
addressing policy, `false` the compact ("squeeze") policy; the running output
cursor starts at 0.  The result is the rewritten table (`Table::from
(table.address, entries)`) plus the journal of arena writes; the unchanged
container fields of the output rom are not re-modelled.  `none` models the
panics of the loop and of the initial `rom.table.as_ref().unwrap()`. -/
def decompressRom (codec : List Nat → Nat → Option (List Nat)) (rom : ZRom)
    (matching : Bool) :
    Option (Except DecompressError (ZTable × List (Nat × List Nat))) :=
  match rom.table with
  | none => none
  | some table =>
    match decompressGo codec rom.rom.image matching table.entries 0 [] [] with
    | none => none
    | some (.error e) => some (.error e)
    | some (.ok (es, ws)) => some (.ok (⟨table.address, es⟩, ws))

/-- Big-endian encoding of a u32 into four bytes. -/
def encodeU32 (x : Nat) : List Nat :=
  [x / 0x1000000 % 0x100, x / 0x10000 % 0x100, x / 0x100 % 0x100, x % 0x100]

/-- Modelled from the spec: entry serialization, four big-endian words in field
order (16 bytes). -/
def encodeEntry (e : Entry) : List Nat :=
  encodeU32 e.virtualStart ++ encodeU32 e.virtualEnd ++
  encodeU32 e.physicalStart ++ encodeU32 e.physicalEnd

/-- Modelled from the spec: zelda64-rs `Table::size`, the byte length of the
serialized entries at 16-byte stride with no separators. -/
def ZTable.size (t : ZTable) : Nat := ENTRY_SIZE * t.entries.length

/-- Modelled from the spec: zelda64-rs `Table::write`, entries serialized in
order. -/
def ZTable.writeBytes (t : ZTable) : List Nat :=
  t.entries.flatMap encodeEntry

/-- Overwrite `dst` starting at `pos` with `src` (in-bounds splice). -/
def spliceBytes (dst : List Nat) (pos : Nat) (src : List Nat) : List Nat :=
  dst.take pos ++ src ++ dst.drop (pos + src.length)

/-- Errors of zelda64-rs `rom::Error`. -/
inductive ZRomError where
  | dmaError (e : DmaError)
  | headerError
  | ioError
deriving DecidableEq, Repr

/-- Modelled from the spec: zelda64-rs `Table::find` (its `dma.rs` is not
among the sources).  Per the spec the discovery and parse engine is the one of
`src/src/dma.rs`, run over the full container image, with the zelda64-rs table
keeping its discovery offset in `address`. -/
def zTableFind (img : List Nat) : Except DmaError (Option ZTable) :=
  match tableFind img with
  | .error e => .error e
  | .ok none => .ok none
  | .ok (some (t, off)) => .ok (some ⟨off, t.entries⟩)

/-- zelda64-rs `Rom::read`, after the external container read: wrap the full
image in a cursor, search for the table, and build the rom with the table
present or absent; table absence is not an error. -/
def zRomRead (n64 : N64Rom) : Except ZRomError ZRom :=
  match zTableFind n64.full with
  | .error e => .error (.dmaError e)
  | .ok none => .ok ⟨n64, none⟩
  | .ok (some t) => .ok ⟨n64, some t⟩

/-- zelda64-rs `Rom::update_table_data`: with no table, do nothing; with a
table, re-encode it and write it over `full_mut()[address .. address + size]`.
`none` models the slice-indexing panic when that range exceeds the image. -/
def updateTableData (r : ZRom) : Option (Except ZRomError ZRom) :=
  match r.table with
  | none => some (.ok r)
  | some t =>
    if t.address + t.size ≤ r.rom.image.length then
      some (.ok ⟨⟨spliceBytes r.rom.image t.address t.writeBytes⟩, r.table⟩)
    else none

/-- zelda64-rs `Rom::patch`: a `Cursor` over `data_mut()` (the image past the
head region) is sought to `offset` and `bytes` are written with a single
`Write::write`.  A cursor write into a mutable slice stores
`min (bytes length) (body length - position)` bytes (the position itself
capped at the body length) and returns the amount written; it cannot fail. -/
def ZRomPatch (r : ZRom) (offset : Nat) (bytes : List Nat) :
    Except ZRomError (ZRom × Nat) :=
  let body := r.rom.data
  let pos := min offset body.length
  let amt := min bytes.length (body.length - pos)
  let body2 := spliceBytes body pos (bytes.take amt)
  .ok (⟨⟨r.rom.image.take HEAD_SIZE ++ body2⟩, r.table⟩, amt)

/-- The four fields of an entry fit in a u32 (as any entry decoded from
bytes does). -/
def entryWf (e : Entry) : Prop :=
  e.virtualStart < U32_SIZE ∧ e.virtualEnd < U32_SIZE ∧
  e.physicalStart < U32_SIZE ∧ e.physicalEnd < U32_SIZE

instance (e : Entry) : Decidable (entryWf e) := by
  unfold entryWf
  infer_instance

theorem toVec_all_zero (e : Entry) :
    (e.toVec.all fun x => x == 0) = true ↔
      (e.virtualStart = 0 ∧ e.virtualEnd = 0 ∧
       e.physicalStart = 0 ∧ e.physicalEnd = 0) := by
  simp [Entry.toVec]

theorem kind_empty_iff (e : Entry) :
    e.kind = .empty ↔
      (e.virtualStart = 0 ∧ e.virtualEnd = 0 ∧
       e.physicalStart = 0 ∧ e.physicalEnd = 0) := by
  by_cases h1 : (e.toVec.all fun x => x == 0) = true
  · simp only [Entry.kind, h1, if_true]
    simpa using (toVec_all_zero e).1 h1
  · have hz := fun hZ => h1 ((toVec_all_zero e).2 hZ)
    simp only [Entry.kind, h1, if_false, Bool.false_eq_true]
    split_ifs <;> simp <;>
      exact fun h2 h3 h4 h5 => hz ⟨h2, h3, h4, h5⟩

theorem kind_dne_iff (e : Entry) :
    e.kind = .doesNotExist ↔
      (e.physicalStart = U32_MAX ∧ e.physicalEnd = U32_MAX ∧
       ¬(e.virtualStart = 0 ∧ e.virtualEnd = 0 ∧
         e.physicalStart = 0 ∧ e.physicalEnd = 0)) := by
  by_cases h1 : (e.toVec.all fun x => x == 0) = true
  · have hZ := (toVec_all_zero e).1 h1
    simp only [Entry.kind, h1, if_true]
    simp [hZ]
  · have hz := fun hZ => h1 ((toVec_all_zero e).2 hZ)
    simp only [Entry.kind, h1, if_false, Bool.false_eq_true, Entry.phys]
    split_ifs with h2 h3 <;> simp_all

theorem kind_decompressed_iff (e : Entry) :
    e.kind = .decompressed ↔
      (e.physicalEnd = 0 ∧
       ¬(e.virtualStart = 0 ∧ e.virtualEnd = 0 ∧
         e.physicalStart = 0 ∧ e.physicalEnd = 0) ∧
       ¬(e.physicalStart = U32_MAX ∧ e.physicalEnd = U32_MAX)) := by
  by_cases h1 : (e.toVec.all fun x => x == 0) = true
  · have hZ := (toVec_all_zero e).1 h1
    simp only [Entry.kind, h1, if_true]
    simp [hZ]
  · have hz := fun hZ => h1 ((toVec_all_zero e).2 hZ)
    simp only [Entry.kind, h1, if_false, Bool.false_eq_true, Entry.phys]
    split_ifs with h2 h3 <;> simp_all

theorem kind_compressed_iff (e : Entry) :
    e.kind = .compressed ↔
      (e.physicalEnd ≠ 0 ∧
       ¬(e.virtualStart = 0 ∧ e.virtualEnd = 0 ∧
         e.physicalStart = 0 ∧ e.physicalEnd = 0) ∧
       ¬(e.physicalStart = U32_MAX ∧ e.physicalEnd = U32_MAX)) := by
  by_cases h1 : (e.toVec.all fun x => x == 0) = true
  · have hZ := (toVec_all_zero e).1 h1
    simp only [Entry.kind, h1, if_true]
    simp [hZ]
  · have hz := fun hZ => h1 ((toVec_all_zero e).2 hZ)
    simp only [Entry.kind, h1, if_false, Bool.false_eq_true, Entry.phys]
    split_ifs with h2 h3 <;> simp_all

theorem realPhys_compressed (e : Entry) (h : e.kind = .compressed) :
    e.realPhys = (some (e.physicalStart, e.physicalEnd), .compressed) := by
  simp [Entry.realPhys, h, Entry.phys]

theorem realPhys_decompressed (e : Entry) (h : e.kind = .decompressed) :
    e.realPhys =
      (some (e.physicalStart,
             (e.physicalStart + rangeLen e.virt % U32_SIZE) % U32_SIZE),
       .decompressed) := by
  simp [Entry.realPhys, h]

theorem realPhys_none_iff (e : Entry) :
    e.realPhys.1 = none ↔ (e.kind = .empty ∨ e.kind = .doesNotExist) := by
  rcases hk : e.kind with _ | _ | _ | _ <;> simp [Entry.realPhys, hk]

theorem realPhys_kind (e : Entry) : e.realPhys.2 = e.kind := by
  rcases hk : e.kind with _ | _ | _ | _ <;> simp [Entry.realPhys, hk]

/-- Claim C1: classification is a pure total function of the four fields
(`Entry.kind` is a Lean function of the record): `Empty` iff all four fields
are zero, `DoesNotExist` iff both physical fields are `0xFFFFFFFF` and the
entry is not empty, `Decompressed` iff `physical_end = 0` and neither of the
former, `Compressed` in every remaining case; the real physical range is
`[physical_start, physical_end)` for `Compressed` and
`[physical_start, physical_start + (virtual_end - virtual_start))` for
`Decompressed` (stated for entries whose inferred end fits in a u32, where the
wrapping u32 arithmetic of the source is exact). -/
theorem claim_c1_classification (e : Entry) :
    (e.kind = .empty ↔
       (e.virtualStart = 0 ∧ e.virtualEnd = 0 ∧
        e.physicalStart = 0 ∧ e.physicalEnd = 0)) ∧
    (e.kind = .doesNotExist ↔
       (e.physicalStart = U32_MAX ∧ e.physicalEnd = U32_MAX ∧ e.kind ≠ .empty)) ∧
    (e.kind = .decompressed ↔
       (e.physicalEnd = 0 ∧ e.kind ≠ .empty ∧ e.kind ≠ .doesNotExist)) ∧
    (e.kind = .compressed ↔
       (e.physicalEnd ≠ 0 ∧ e.kind ≠ .empty ∧ e.kind ≠ .doesNotExist)) ∧
    (e.kind = .compressed →
       e.realPhys.1 = some (e.physicalStart, e.physicalEnd)) ∧
    (e.kind = .decompressed → e.virtualStart ≤ e.virtualEnd →
       e.physicalStart + (e.virtualEnd - e.virtualStart) < U32_SIZE →
       e.realPhys.1 =
         some (e.physicalStart,
               e.physicalStart + (e.virtualEnd - e.virtualStart))) := by
  refine ⟨kind_empty_iff e, ?_, ?_, ?_, ?_, ?_⟩
  · rw [kind_dne_iff e]
    simp only [Ne, kind_empty_iff e]
  · rw [kind_decompressed_iff e]
    simp only [Ne, kind_empty_iff e, kind_dne_iff e]
    tauto
  · rw [kind_compressed_iff e]
    simp only [Ne, kind_empty_iff e, kind_dne_iff e]
    tauto
  · intro h
    rw [realPhys_compressed e h]
  · intro h hvle hfit
    rw [realPhys_decompressed e h]
    have hlen : rangeLen e.virt = e.virtualEnd - e.virtualStart := rfl
    have h1 : rangeLen e.virt % U32_SIZE = e.virtualEnd - e.virtualStart := by
      rw [hlen]
      exact Nat.mod_eq_of_lt (by omega)
    rw [h1, Nat.mod_eq_of_lt hfit]

/-- Claim C1 witness: a concrete `Decompressed` entry, its classification and
its inferred real physical range. -/
theorem claim_c1_witness :
    (Entry.mk 0x1060 0x1160 0x2080 0).kind = .decompressed ∧
    0x1060 ≤ 0x1160 ∧ (0x2080 + (0x1160 - 0x1060) : Nat) < U32_SIZE ∧
    (Entry.mk 0x1060 0x1160 0x2080 0).realPhys.1 = some (0x2080, 0x2180) := by
  refine ⟨by decide, by decide, by decide, ?_⟩
  have h :=
    (claim_c1_classification ⟨0x1060, 0x1160, 0x2080, 0⟩).2.2.2.2.2
      (by decide) (by decide) (by decide)
  simpa using h

/-- Claim C6: `validate` fails with `InvalidRange Virtual` whenever
`virtual_start > virtual_end` regardless of the physical fields; for entries
with a real physical range it fails with `InvalidRange Physical` when that
real (post-inference) range has start above end; otherwise it succeeds,
returning the virtual range, the real physical range (none exactly for
`Empty`/`DoesNotExist`) and the classification, unclamped. -/
theorem claim_c6_validate (e : Entry) :
    (e.virtualStart > e.virtualEnd →
       e.validate = .error (.invalidRange .virtual e.virt)) ∧
    (e.virtualStart ≤ e.virtualEnd → ∀ p, e.realPhys.1 = some p → p.1 > p.2 →
       e.validate = .error (.invalidRange .physical p)) ∧
    (e.virtualStart ≤ e.virtualEnd → ∀ p, e.realPhys.1 = some p → p.1 ≤ p.2 →
       e.validate = .ok (e.virt, some p, e.kind)) ∧
    (e.virtualStart ≤ e.virtualEnd → e.realPhys.1 = none →
       e.validate = .ok (e.virt, none, e.kind)) ∧
    (e.realPhys.1 = none ↔ (e.kind = .empty ∨ e.kind = .doesNotExist)) := by
  have hks := realPhys_kind e
  refine ⟨?_, ?_, ?_, ?_, realPhys_none_iff e⟩
  · intro hgt
    have hv : e.virt.1 > e.virt.2 := hgt
    simp [Entry.validate, hv, Entry.virt]
    omega
  · intro hle p hp hplt
    have hv : ¬(e.virt.1 > e.virt.2) := by simp [Entry.virt]; omega
    rcases hrp : e.realPhys with ⟨p?, k⟩
    rw [hrp] at hp
    simp only at hp
    subst hp
    simp [Entry.validate, hrp, hv, hplt, Entry.virt]
    omega
  · intro hle p hp hple
    have hv : ¬(e.virt.1 > e.virt.2) := by simp [Entry.virt]; omega
    rcases hrp : e.realPhys with ⟨p?, k⟩
    have hk : k = e.kind := by rw [← hks, hrp]
    rw [hrp] at hp
    simp only at hp
    subst hp
    have hnp : ¬(p.1 > p.2) := by omega
    simp [Entry.validate, hrp, hv, hnp, hk]
  · intro hle hp
    have hv : ¬(e.virt.1 > e.virt.2) := by simp [Entry.virt]; omega
    rcases hrp : e.realPhys with ⟨p?, k⟩
    have hk : k = e.kind := by rw [← hks, hrp]
    rw [hrp] at hp
    simp only at hp
    subst hp
    simp [Entry.validate, hrp, hv, hk]

/-- Claim C6 witness: validation outcomes at concrete entries, obtained from
the theorem with its hypotheses discharged. -/
theorem claim_c6_witness :
    (Entry.mk 5 3 7 9).validate = .error (.invalidRange .virtual (5, 3)) ∧
    (Entry.mk 0 0x10 0x40 0x20).validate =
      .error (.invalidRange .physical (0x40, 0x20)) ∧
    (Entry.mk 0x10 0x20 0x40 0x60).validate =
      .ok ((0x10, 0x20), some (0x40, 0x60), .compressed) ∧
    (Entry.mk 0 0x10 0xFFFFFFFF 0xFFFFFFFF).validate =
      .ok ((0, 0x10), none, .doesNotExist) := by
  refine ⟨?_, ?_, ?_, ?_⟩
  · exact (claim_c6_validate ⟨5, 3, 7, 9⟩).1 (by decide)
  · exact (claim_c6_validate ⟨0, 0x10, 0x40, 0x20⟩).2.1 (by decide)
      (0x40, 0x20) (by decide) (by decide)
  · exact (claim_c6_validate ⟨0x10, 0x20, 0x40, 0x60⟩).2.2.1 (by decide)
      (0x40, 0x60) (by decide) (by decide)
  · exact (claim_c6_validate ⟨0, 0x10, 0xFFFFFFFF, 0xFFFFFFFF⟩).2.2.2.1
      (by decide) (by decide)

theorem findOffsetGo_none_of_no_magic (img : List Nat)
    (h : ∀ k, k ≤ img.length → 16 * k + 9 ≤ img.length →
         (img.drop (16 * k)).take 9 ≠ TABLE_MAGIC) :
    ∀ n off, img.length - off ≤ n → 16 ∣ off → findOffsetGo img off = none := by
  intro n
  induction n with
  | zero =>
    intro off hle _
    rw [findOffsetGo]
    have hb : ¬(off + 9 ≤ img.length) := by omega
    simp [hb]
  | succ n ih =>
    intro off hle hdvd
    rw [findOffsetGo]
    by_cases hb : off + 9 ≤ img.length
    · obtain ⟨k, rfl⟩ := hdvd
      have hmagic := h k (by omega) (by omega)
      simp only [hb, dif_pos, hmagic, if_false]
      have hrec : 16 * k + TABLE_ALIGN = 16 * (k + 1) := by
        simp [TABLE_ALIGN]
        ring
      rw [hrec]
      exact ih (16 * (k + 1)) (by simp [TABLE_ALIGN] at hrec ⊢; omega) ⟨k + 1, rfl⟩
    · simp [hb]

/-- Claim C5: table discovery over any finite buffer containing no occurrence
of the nine-byte magic at a 16-byte-aligned offset terminates (the scan
advances by `TABLE_ALIGN` and stops once fewer than nine bytes remain — the
function is total by construction) and surfaces the not-found condition as the
designated not-found result `ok none` (the outcome the specification labels
`NotFoundError`), never an `io` error at end of input. -/
theorem claim_c5_find_offset (img : List Nat)
    (h : ∀ k, k ≤ img.length → 16 * k + 9 ≤ img.length →
         (img.drop (16 * k)).take 9 ≠ TABLE_MAGIC) :
    findOffset img = .ok none := by
  unfold findOffset
  rw [findOffsetGo_none_of_no_magic img h img.length 0 (by omega) ⟨0, rfl⟩]

/-- Claim C5 witness: a 32-byte all-zero buffer has no aligned magic and the
scan reports not-found. -/
theorem claim_c5_witness :
    (∀ k, k ≤ (List.replicate 32 0 : List Nat).length →
       16 * k + 9 ≤ (List.replicate 32 0 : List Nat).length →
       ((List.replicate 32 0 : List Nat).drop (16 * k)).take 9 ≠ TABLE_MAGIC) ∧
    findOffset (List.replicate 32 0) = .ok none := by
  refine ⟨by decide, claim_c5_find_offset (List.replicate 32 0) (by decide)⟩

/-- A concrete rom for exercising `Rom::patch`: a head region of zeros and a
four-byte body. -/
def patchDemoRom : ZRom := ⟨⟨List.replicate 0x1000 0 ++ [10, 11, 12, 13]⟩, none⟩

theorem patchDemoRom_data : patchDemoRom.rom.data = [10, 11, 12, 13] := by
  show (List.replicate 0x1000 (0 : Nat) ++ [10, 11, 12, 13]).drop HEAD_SIZE = _
  exact List.drop_left' (by rw [List.length_replicate]; rfl)

theorem patchDemoRom_take :
    patchDemoRom.rom.image.take HEAD_SIZE = List.replicate 0x1000 0 := by
  show (List.replicate 0x1000 (0 : Nat) ++ [10, 11, 12, 13]).take HEAD_SIZE = _
  exact List.take_left' (by rw [List.length_replicate]; rfl)

theorem patchDemoRom_head_le : HEAD_SIZE ≤ patchDemoRom.rom.image.length := by
  show HEAD_SIZE ≤ (List.replicate 0x1000 (0 : Nat) ++ [10, 11, 12, 13]).length
  rw [List.length_append, List.length_replicate]
  norm_num [HEAD_SIZE]

/-- Claim C9 counterexample: patching four bytes at offset 2 of a four-byte
body (so `offset + bytes.len() = 6` exceeds the body) does not fail with an
I/O-style error — the cursor write truncates, stores two bytes and returns
`Ok(2)`. -/
theorem claim_c9_counterexample :
    patchDemoRom.rom.data.length < 2 + 4 ∧
    ZRomPatch patchDemoRom 2 [1, 2, 3, 4] =
      .ok (⟨⟨List.replicate 0x1000 0 ++ [10, 11, 1, 2]⟩, none⟩, 2) := by
  have key : ZRomPatch patchDemoRom 2 [1, 2, 3, 4] =
      .ok (⟨⟨patchDemoRom.rom.image.take HEAD_SIZE ++
              spliceBytes patchDemoRom.rom.data
                (min 2 patchDemoRom.rom.data.length)
                (([1, 2, 3, 4] : List Nat).take
                  (min 4 (patchDemoRom.rom.data.length -
                          min 2 patchDemoRom.rom.data.length)))⟩, none⟩,
           min 4 (patchDemoRom.rom.data.length -
                  min 2 patchDemoRom.rom.data.length)) := rfl
  constructor
  · rw [patchDemoRom_data]
    decide
  · rw [key, patchDemoRom_data, patchDemoRom_take]
    norm_num [spliceBytes]

/-- Claim C9 (amended): `patch(offset, bytes)` seeks the cursor to `offset`
within the body view and writes with a single truncating `Write::write`: it
always succeeds, returns the number of bytes stored —
`min (bytes.len()) (body.len() - min offset (body.len()))` — which falls short
of `bytes.len()` exactly when `offset + bytes.len()` exceeds the body (unless
`bytes` is empty), never an error; the stored bytes overwrite the body at the
capped offset and the rest of the image is unchanged. -/
theorem claim_c9_patch_truncates (r : ZRom) (offset : Nat) (bytes : List Nat)
    (hh : HEAD_SIZE ≤ r.rom.image.length) :
    ∃ r2 n, ZRomPatch r offset bytes = .ok (r2, n) ∧
      n = min bytes.length
            (r.rom.data.length - min offset r.rom.data.length) ∧
      (offset + bytes.length ≤ r.rom.data.length → n = bytes.length) ∧
      (r.rom.data.length < offset + bytes.length →
        n < bytes.length ∨ bytes = []) ∧
      r2.rom.data =
        spliceBytes r.rom.data (min offset r.rom.data.length) (bytes.take n) ∧
      r2.table = r.table := by
  refine ⟨_, _, rfl, rfl, ?_, ?_, ?_, rfl⟩
  · intro hle
    omega
  · intro hgt
    rcases Nat.eq_zero_or_pos bytes.length with hb | hb
    · right
      exact List.eq_nil_of_length_eq_zero hb
    · left
      omega
  · show (r.rom.image.take HEAD_SIZE ++ _).drop HEAD_SIZE = _
    have hlen : (r.rom.image.take HEAD_SIZE).length = HEAD_SIZE := by
      rw [List.length_take]
      omega
    exact List.drop_left' hlen

/-- Claim C9 witness: the amended theorem applied to the concrete rom, showing
a genuine truncated write. -/
theorem claim_c9_witness :
    HEAD_SIZE ≤ patchDemoRom.rom.image.length ∧
    ∃ r2 n, ZRomPatch patchDemoRom 2 [1, 2, 3, 4] = .ok (r2, n) ∧ n < 4 := by
  obtain ⟨r2, n, h1, h2, h3, h4, h5, h6⟩ :=
    claim_c9_patch_truncates patchDemoRom 2 [1, 2, 3, 4] patchDemoRom_head_le
  refine ⟨patchDemoRom_head_le, r2, n, h1, ?_⟩
  rw [patchDemoRom_data] at h2
  simp at h2
  omega

/-- Claim C8 counterexample: on a rom whose table is absent, `decompress_rom`
panics (it unwraps the absent table; `none` is the panic of the embedding)
instead of being a no-op or returning an explicit error. -/
theorem claim_c8_counterexample :
    decompressRom (fun _ _ => none) ⟨⟨[]⟩, none⟩ true = none := rfl

/-- Claim C8 (amended): after `Rom::read`, the absence of a DMA table is not
an error — `read` succeeds with the table unset — and `update_table_data` on a
table-less rom is a no-op; but `decompress_rom` on a table-less rom panics
(unwraps the absent table) for every codec and policy, rather than being a
no-op or an explicit error. -/
theorem claim_c8_no_table (n64 : N64Rom) (r : ZRom)
    (h1 : zTableFind n64.full = .ok none) (h2 : r.table = none) :
    zRomRead n64 = .ok ⟨n64, none⟩ ∧
    updateTableData r = some (.ok r) ∧
    ∀ codec matching, decompressRom codec r matching = none := by
  refine ⟨?_, ?_, ?_⟩
  · unfold zRomRead
    rw [h1]
  · unfold updateTableData
    rw [h2]
  · intro codec matching
    unfold decompressRom
    rw [h2]

theorem zTableFind_nil : zTableFind (N64Rom.full ⟨[]⟩) = .ok none := by
  have h0 : findOffsetGo [] 0 = none := by
    rw [findOffsetGo]
    norm_num
  unfold zTableFind tableFind findHeader
  rw [show N64Rom.full ⟨[]⟩ = [] from rfl, h0]

/-- Claim C8 witness: the amended theorem at the empty image. -/
theorem claim_c8_witness :
    zTableFind (N64Rom.full ⟨[]⟩) = .ok none ∧
    zRomRead ⟨[]⟩ = .ok ⟨⟨[]⟩, none⟩ ∧
    updateTableData ⟨⟨[]⟩, none⟩ = some (.ok ⟨⟨[]⟩, none⟩) ∧
    decompressRom (fun _ d => some (List.replicate d 0)) ⟨⟨[]⟩, none⟩ false =
      none := by
  have h := claim_c8_no_table ⟨[]⟩ ⟨⟨[]⟩, none⟩ zTableFind_nil rfl
  exact ⟨zTableFind_nil, h.1, h.2.1, h.2.2 _ false⟩

/-- A concrete rom and entry for exercising `Rom::slice`: the image is 0x40
bytes but the entry claims compressed data at physical range
`[0x100, 0x110)`. -/
def sliceDemoRom : ZRom :=
  ⟨⟨List.replicate 0x40 0⟩, some ⟨0, [⟨0, 0x10, 0x100, 0x110⟩]⟩⟩

/-- Claim C7: the output-range check against the 64 MiB arena does fail softly
with `OutOfRangeError` (second conjunct, an entry whose virtual range tops the
arena), but slicing the input at a real physical range beyond the source
buffer is a slice-indexing panic (`none`), not an `OutOfRangeError` — shown
both for `Rom::slice` itself and for the whole reconstruction run, which
propagates the panic instead of returning an error. -/
theorem claim_c7_slice_panics :
    ZRom.slice sliceDemoRom ⟨0, 0x10, 0x100, 0x110⟩ = none ∧
    decompressRom (fun _ _ => none) sliceDemoRom true = none ∧
    decompressRom (fun _ _ => none)
      ⟨⟨List.replicate 0x40 0⟩, some ⟨0, [⟨0x4000000, 0x4000010, 0, 0⟩]⟩⟩ true =
      some (.error (.outOfRange (0x4000000, 0x4000010))) := by
  refine ⟨by decide, by decide, by decide⟩

theorem validate_ok_inv {e : Entry} {v : Nat × Nat} {p? : Option (Nat × Nat)}
    {k : EntryType} (h : e.validate = .ok (v, p?, k)) :
    v = e.virt ∧ p? = e.realPhys.1 ∧ k = e.kind ∧ v.1 ≤ v.2 ∧
      ∀ p, p? = some p → p.1 ≤ p.2 := by
  rcases hrp : e.realPhys with ⟨q?, k2⟩
  have hk2 : k2 = e.kind := by rw [← realPhys_kind e, hrp]
  have hq2 : e.realPhys.1 = q? := by rw [hrp]
  unfold Entry.validate at h
  rw [hrp] at h
  simp only at h
  by_cases h1 : e.virt.1 > e.virt.2
  · rw [if_pos h1] at h
    exact absurd h (by simp)
  · rw [if_neg h1] at h
    cases q? with
    | none =>
      simp only [Except.ok.injEq, Prod.mk.injEq] at h
      obtain ⟨hv, hp, hk⟩ := h
      subst hv hk
      exact ⟨rfl, hp.symm, hk2, by omega, fun p hp2 => by
        rw [← hp] at hp2; cases hp2⟩
    | some p =>
      simp only at h
      by_cases h2 : p.1 > p.2
      · rw [if_pos h2] at h
        exact absurd h (by simp)
      · rw [if_neg h2] at h
        simp only [Except.ok.injEq, Prod.mk.injEq] at h
        obtain ⟨hv, hp, hk⟩ := h
        subst hv hk
        refine ⟨rfl, hp.symm, hk2, by omega, ?_⟩
        intro q hq
        rw [← hp] at hq
        cases hq
        omega

/-- Following the words of the specification for the matching policy: a
resolved entry keeps its virtual range, gets `physical_start` equal to the
output range start (the virtual start under the matching policy) and
`physical_end = 0`; rangeless entries are carried unchanged. -/
def matchingOutEntry (e : Entry) : Entry :=
  match e.validate with
  | .ok (v, some _, _) => ⟨v.1, v.2, v.1, 0⟩
  | _ => e

/-- Following the words of the specification for the matching policy: each
resolved entry contributes one arena write at its virtual start, of the
decompressed bytes (the codec output for `Compressed`, the input slice for
`Decompressed`); rangeless entries contribute nothing. -/
def matchWrite (codec : List Nat → Nat → Option (List Nat)) (img : List Nat)
    (e : Entry) : Option (Nat × List Nat) :=
  match e.validate with
  | .ok (v, some _, .compressed) =>
      some (v.1, (codec ((sliceImage img e).getD []) (rangeLen v)).getD [])
  | .ok (v, some _, .decompressed) =>
      some (v.1, (sliceImage img e).getD [])
  | _ => none

theorem decompressGo_matching_ok
    (codec : List Nat → Nat → Option (List Nat)) (img : List Nat) :
    ∀ (es : List Entry) (offset : Nat) (accE : List Entry)
      (accW : List (Nat × List Nat)) (E : List Entry)
      (W : List (Nat × List Nat)),
      decompressGo codec img true es offset accE accW = some (.ok (E, W)) →
      E = accE ++ es.map matchingOutEntry ∧
      W = accW ++ es.filterMap (matchWrite codec img) ∧
      ∀ e ∈ es, ∀ v p k, e.validate = .ok (v, some p, k) →
        ∃ input, sliceImage img e = some input ∧
          (k = .decompressed → input.length = rangeLen v) ∧
          (k = .compressed → ∃ bs, codec input (rangeLen v) = some bs) := by
  intro es
  induction es with
  | nil =>
    intro offset accE accW E W h
    simp only [decompressGo, Option.some.injEq, Except.ok.injEq,
      Prod.mk.injEq] at h
    obtain ⟨hE, hW⟩ := h
    subst hE hW
    simp
  | cons e rest ih =>
    intro offset accE accW E W h
    rw [decompressGo] at h
    rcases hval : e.validate with err | ⟨v, p?, k⟩ <;> rw [hval] at h
    · cases h
    · cases p? with
      | none =>
        obtain ⟨hE, hW, hres⟩ := ih _ _ _ _ _ h
        have hout : matchingOutEntry e = e := by
          unfold matchingOutEntry
          rw [hval]
        have hwr : matchWrite codec img e = none := by
          unfold matchWrite
          rw [hval]
        refine ⟨?_, ?_, ?_⟩
        · rw [hE, List.map_cons, hout, List.append_assoc, List.singleton_append]
        · rw [hW, List.filterMap_cons, hwr]
        · intro e2 he2 v2 p2 k2 hv2
          rcases List.mem_cons.1 he2 with rfl | hmem
          · rw [hval] at hv2
            cases hv2
          · exact hres e2 hmem v2 p2 k2 hv2
      | some p =>
        simp only at h
        rcases hsl : sliceImage img e with _ | input <;> rw [hsl] at h
        · cases h
        · simp only [if_true, reduceIte] at h
          by_cases hbound : v.1 ≤ v.2 ∧ v.2 ≤ ROM_CAPACITY
          · rw [if_pos hbound] at h
            have hout : matchingOutEntry e = ⟨v.1, v.2, v.1, 0⟩ := by
              unfold matchingOutEntry
              rw [hval]
            rcases k with _ | _ | _ | _
            · -- compressed
              rcases hc : codec input (v.2 - v.1) with _ | bs <;> rw [hc] at h
              · cases h
              · obtain ⟨hE, hW, hres⟩ := ih _ _ _ _ _ h
                have hwr : matchWrite codec img e = some (v.1, bs) := by
                  unfold matchWrite
                  rw [hval, hsl]
                  show some (v.1, (codec input (rangeLen v)).getD []) = _
                  rw [show rangeLen v = v.2 - v.1 from rfl, hc]
                  rfl
                refine ⟨?_, ?_, ?_⟩
                · rw [hE, List.map_cons, hout, List.append_assoc,
                    List.singleton_append]
                  rfl
                · rw [hW, List.filterMap_cons, hwr, List.append_assoc,
                    List.singleton_append]
                · intro e2 he2 v2 p2 k2 hv2
                  rcases List.mem_cons.1 he2 with rfl | hmem
                  · rw [hval] at hv2
                    simp only [Except.ok.injEq, Prod.mk.injEq] at hv2
                    obtain ⟨hv2v, hv2p, hv2k⟩ := hv2
                    subst hv2v hv2k
                    refine ⟨input, hsl, ?_, ?_⟩
                    · intro hd
                      cases hd
                    · intro _
                      exact ⟨bs, hc⟩
                  · exact hres e2 hmem v2 p2 k2 hv2
            · -- decompressed
              by_cases hlen : input.length = v.2 - v.1
              · rw [if_pos hlen] at h
                obtain ⟨hE, hW, hres⟩ := ih _ _ _ _ _ h
                have hwr : matchWrite codec img e = some (v.1, input) := by
                  unfold matchWrite
                  rw [hval, hsl]
                  rfl
                refine ⟨?_, ?_, ?_⟩
                · rw [hE, List.map_cons, hout, List.append_assoc,
                    List.singleton_append]
                  rfl
                · rw [hW, List.filterMap_cons, hwr, List.append_assoc,
                    List.singleton_append]
                · intro e2 he2 v2 p2 k2 hv2
                  rcases List.mem_cons.1 he2 with rfl | hmem
                  · rw [hval] at hv2
                    simp only [Except.ok.injEq, Prod.mk.injEq] at hv2
                    obtain ⟨hv2v, hv2p, hv2k⟩ := hv2
                    subst hv2v hv2k
                    refine ⟨input, hsl, ?_, ?_⟩
                    · intro _
                      exact hlen
                    · intro hc
                      cases hc
                  · exact hres e2 hmem v2 p2 k2 hv2
              · rw [if_neg hlen] at h
                cases h
            · cases h
            · cases h
          · rw [if_neg hbound] at h
            cases h

theorem fromUncompressed_kind (vs ve ps : Nat)
    (h : ¬(vs = 0 ∧ ve = 0 ∧ ps = 0)) :
    (Entry.fromUncompressed vs ve ps).kind = .decompressed := by
  rw [kind_decompressed_iff]
  refine ⟨rfl, ?_, ?_⟩
  · intro hz
    exact h ⟨hz.1, hz.2.1, hz.2.2.1⟩
  · intro hd
    have : (0 : Nat) = U32_MAX := hd.2
    simp [U32_MAX] at this

theorem matchingOutEntry_resolved {e : Entry} {v p : Nat × Nat} {k : EntryType}
    (h : e.validate = .ok (v, some p, k)) :
    matchingOutEntry e = ⟨v.1, v.2, v.1, 0⟩ := by
  unfold matchingOutEntry
  rw [h]

theorem matchingOutEntry_rangeless {e : Entry} (h : e.realPhys.1 = none) :
    matchingOutEntry e = e := by
  unfold matchingOutEntry
  rcases hv : e.validate with err | ⟨v, p?, k⟩
  · rfl
  · obtain ⟨_, hp, _⟩ := validate_ok_inv hv
    rw [h] at hp
    subst hp
    rfl

/-- Claim C3 (amended): under the matching policy, for every resolved input
entry (one with a real physical range, that is `Compressed`/`Decompressed`)
the engine writes the resolved bytes to the output arena at exactly the real
virtual range — one journal write starting at the virtual start whose length
is the virtual length (given the codec contract) — and appends an output
entry with `virtual_start`/`virtual_end` unchanged, `physical_start` the
output range start and `physical_end = 0`; such an output entry classifies as
`Decompressed` unless all its fields are zero (a zero-length file at virtual
address 0, which classifies as `Empty`); `Empty`/`DoesNotExist` entries are
carried unchanged with no bytes written. -/
theorem claim_c3_matching (codec : List Nat → Nat → Option (List Nat))
    (rom : ZRom) (t : ZTable) (res : ZTable × List (Nat × List Nat))
    (ht : rom.table = some t)
    (h : decompressRom codec rom true = some (.ok res)) :
    res.1.address = t.address ∧
    res.1.entries = t.entries.map matchingOutEntry ∧
    res.2 = t.entries.filterMap (matchWrite codec rom.rom.image) ∧
    (∀ e ∈ t.entries, ∀ v p k, e.validate = .ok (v, some p, k) →
       matchingOutEntry e = ⟨v.1, v.2, v.1, 0⟩ ∧
       (¬(v.1 = 0 ∧ v.2 = 0) →
         (Entry.mk v.1 v.2 v.1 0).kind = .decompressed)) ∧
    (∀ e ∈ t.entries, e.realPhys.1 = none →
       matchingOutEntry e = e ∧ matchWrite codec rom.rom.image e = none) ∧
    ((∀ inp d bs, codec inp d = some bs → bs.length = d) →
      ∀ e ∈ t.entries, ∀ w, matchWrite codec rom.rom.image e = some w →
        w.1 = e.virtualStart ∧ w.2.length = rangeLen e.virt) := by
  unfold decompressRom at h
  rw [ht] at h
  simp only at h
  rcases hgo : decompressGo codec rom.rom.image true t.entries 0 [] [] with
    _ | res2 <;> rw [hgo] at h
  · cases h
  · rcases res2 with err | ⟨E, W⟩
    · simp at h
    · simp only [Option.some.injEq, Except.ok.injEq] at h
      obtain ⟨hE, hW, hres⟩ := decompressGo_matching_ok codec rom.rom.image
        t.entries 0 [] [] E W hgo
      subst h
      simp only [List.nil_append] at hE hW
      refine ⟨rfl, hE, hW, ?_, ?_, ?_⟩
      · intro e _ v p k hv
        obtain ⟨hvv, _, _, _, _⟩ := validate_ok_inv hv
        refine ⟨matchingOutEntry_resolved hv, ?_⟩
        intro hnz
        exact fromUncompressed_kind v.1 v.2 v.1 fun hz => hnz ⟨hz.1, hz.2.1⟩
      · intro e _ hnone
        refine ⟨matchingOutEntry_rangeless hnone, ?_⟩
        unfold matchWrite
        rcases hv : e.validate with err | ⟨v, p?, k⟩
        · rfl
        · obtain ⟨_, hp, _⟩ := validate_ok_inv hv
          rw [hnone] at hp
          subst hp
          rfl
      · intro hcodec e he w hw
        unfold matchWrite at hw
        rcases hv : e.validate with err | ⟨v, p?, k⟩ <;> rw [hv] at hw
        · cases hw
        · cases p? with
          | none => cases hw
          | some p =>
            obtain ⟨hvv, _, _, _, _⟩ := validate_ok_inv hv
            obtain ⟨input, hsl, hdlen, hclen⟩ :=
              hres e he v p k hv
            have hv1 : v.1 = e.virtualStart := by rw [hvv]; rfl
            have hrl : rangeLen v = rangeLen e.virt := by rw [hvv]
            rcases k with _ | _ | _ | _
            · -- compressed
              simp only at hw
              obtain ⟨bs, hbs⟩ := hclen rfl
              rw [hsl] at hw
              simp only [Option.getD_some, hbs] at hw
              cases hw
              exact ⟨hv1, by rw [← hrl]; exact hcodec _ _ _ hbs⟩
            · -- decompressed
              simp only at hw
              rw [hsl] at hw
              simp only [Option.getD_some] at hw
              cases hw
              exact ⟨hv1, by rw [← hrl]; exact hdlen rfl⟩
            · cases hw
            · cases hw

/-- A concrete rom for the C3 counterexample: a single `Decompressed` entry of
zero virtual length at virtual address 0 (fields `(0, 0, 5, 0)`). -/
def c3DemoRom : ZRom := ⟨⟨List.replicate 8 0⟩, some ⟨0, [⟨0, 0, 5, 0⟩]⟩⟩

/-- Claim C3 counterexample: reconstructing `c3DemoRom` under the matching
policy succeeds — the input entry `(0, 0, 5, 0)` classifies as `Decompressed`
and has a real physical range — yet its output entry is the all-zero entry,
which classifies as `Empty`, not `Decompressed`. -/
theorem claim_c3_counterexample :
    (Entry.mk 0 0 5 0).kind = .decompressed ∧
    decompressRom (fun _ _ => none) c3DemoRom true =
      some (.ok (⟨0, [⟨0, 0, 0, 0⟩]⟩, [(0, [])])) ∧
    (Entry.mk 0 0 0 0).kind = .empty := by
  refine ⟨by decide, by decide, by decide⟩

/-- A concrete rom for the C3 witness: one `Decompressed` entry of 16 bytes. -/
def c3WitnessRom : ZRom :=
  ⟨⟨List.replicate 0x50 0⟩, some ⟨0, [⟨0x10, 0x20, 0x40, 0⟩]⟩⟩

/-- Claim C3 witness: the amended theorem applied to a concrete one-entry rom
under the matching policy. -/
theorem claim_c3_witness :
    c3WitnessRom.table = some ⟨0, [⟨0x10, 0x20, 0x40, 0⟩]⟩ ∧
    decompressRom (fun _ d => some (List.replicate d 0)) c3WitnessRom true =
      some (.ok (⟨0, [⟨0x10, 0x20, 0x10, 0⟩]⟩, [(0x10, List.replicate 0x10 0)])) ∧
    (⟨0, [⟨0x10, 0x20, 0x10, 0⟩]⟩ : ZTable).entries =
      [⟨0x10, 0x20, 0x40, 0⟩].map matchingOutEntry ∧
    (Entry.mk 0x10 0x20 0x10 0).kind = .decompressed := by
  have hrun : decompressRom (fun _ d => some (List.replicate d 0)) c3WitnessRom
      true =
      some (.ok (⟨0, [⟨0x10, 0x20, 0x10, 0⟩]⟩, [(0x10, List.replicate 0x10 0)])) := by
    decide
  have h := claim_c3_matching (fun _ d => some (List.replicate d 0))
    c3WitnessRom ⟨0, [⟨0x10, 0x20, 0x40, 0⟩]⟩
    (⟨0, [⟨0x10, 0x20, 0x10, 0⟩]⟩, [(0x10, List.replicate 0x10 0)]) rfl hrun
  refine ⟨rfl, hrun, h.2.1.symm ▸ ?_, ?_⟩
  · exact h.2.1 ▸ rfl
  · have h4 := h.2.2.2.1 ⟨0x10, 0x20, 0x40, 0⟩ (by decide) (0x10, 0x20)
      (0x40, 0x50) .decompressed (by decide)
    exact h4.2 (by decide)

/-- Following the words of the specification for the compact policy: the
allocated length of a file is its virtual length rounded up to the next
16-byte boundary. -/
def align16Spec (n : Nat) : Nat := (n + 15) / 16 * 16

/-- Following the words of the specification for the compact policy: output
entries keep their virtual range and point at a running cursor, initialized by
the caller to 0, which advances by the rounded virtual length after each
resolved entry; rangeless entries are carried unchanged and do not move the
cursor. -/
def compactEntries : List Entry → Nat → List Entry
  | [], _ => []
  | e :: rest, c =>
    match e.validate with
    | .ok (v, some _, _) =>
        ⟨v.1, v.2, c, 0⟩ :: compactEntries rest (c + align16Spec (rangeLen v))
    | _ => e :: compactEntries rest c

/-- Following the words of the specification: the sequence of output range
starts under the compact policy — each resolved entry starts exactly where the
previous allocation ended. -/
def compactStarts : List Entry → Nat → List Nat
  | [], _ => []
  | e :: rest, c =>
    match e.validate with
    | .ok (v, some _, _) => c :: compactStarts rest (c + align16Spec (rangeLen v))
    | _ => compactStarts rest c

/-- The final cursor value of the compact allocation. -/
def compactFinal : List Entry → Nat → Nat
  | [], c => c
  | e :: rest, c =>
    match e.validate with
    | .ok (v, some _, _) => compactFinal rest (c + align16Spec (rangeLen v))
    | _ => compactFinal rest c

theorem compactFinal_le (es : List Entry) : ∀ c, c ≤ compactFinal es c := by
  induction es with
  | nil => intro c; simp [compactFinal]
  | cons e rest ih =>
    intro c
    rw [compactFinal]
    rcases hv : e.validate with err | ⟨v, p?, k⟩
    · exact ih c
    · cases p? with
      | none => exact ih c
      | some p =>
        calc c ≤ c + align16Spec (rangeLen v) := Nat.le_add_right _ _
        _ ≤ _ := ih _

theorem align16Spec_ge (l : Nat) : l ≤ align16Spec l := by
  unfold align16Spec
  omega

theorem align16_eq_spec {l : Nat} (h : l + 15 < U32_SIZE) :
    align16 l = align16Spec l := by
  unfold align16 align16Spec
  rw [Nat.mod_eq_of_lt h]

theorem decompressGo_compact_ok
    (codec : List Nat → Nat → Option (List Nat)) (img : List Nat) :
    ∀ (es : List Entry) (offset : Nat) (accE : List Entry)
      (accW : List (Nat × List Nat)) (E : List Entry)
      (W : List (Nat × List Nat)),
      (∀ e ∈ es, entryWf e) →
      compactFinal es offset < U32_SIZE →
      decompressGo codec img false es offset accE accW = some (.ok (E, W)) →
      E = accE ++ compactEntries es offset ∧
      W.map Prod.fst = accW.map Prod.fst ++ compactStarts es offset := by
  intro es
  induction es with
  | nil =>
    intro offset accE accW E W _ _ h
    simp only [decompressGo, Option.some.injEq, Except.ok.injEq,
      Prod.mk.injEq] at h
    obtain ⟨hE, hW⟩ := h
    subst hE hW
    simp [compactEntries, compactStarts]
  | cons e rest ih =>
    intro offset accE accW E W hwf hfin h
    rw [decompressGo] at h
    rw [compactFinal] at hfin
    rcases hval : e.validate with err | ⟨v, p?, k⟩ <;> rw [hval] at h
    · cases h
    · rw [hval] at hfin
      cases p? with
      | none =>
        obtain ⟨hE, hW⟩ := ih _ _ _ _ _ (fun e2 he2 => hwf e2 (by simp [he2]))
          hfin h
        refine ⟨?_, ?_⟩
        · rw [hE, compactEntries, hval, List.append_assoc,
            List.singleton_append]
        · rw [hW, compactStarts, hval]
      | some p =>
        simp only at h hfin
        rcases hsl : sliceImage img e with _ | input <;> rw [hsl] at h
        · cases h
        · -- the wrapped arithmetic coincides with the plain spec arithmetic
          obtain ⟨hvv, _, _, _, _⟩ := validate_ok_inv hval
          have hewf := hwf e (by simp)
          have hrlt : rangeLen v < U32_SIZE := by
            rw [hvv]
            unfold rangeLen Entry.virt entryWf at *
            omega
          have hrmod : rangeLen v % U32_SIZE = rangeLen v :=
            Nat.mod_eq_of_lt hrlt
          have hmono := compactFinal_le rest (offset + align16Spec (rangeLen v))
          have hsfit : offset + align16Spec (rangeLen v) < U32_SIZE := by omega
          have hl15 : rangeLen v + 15 < U32_SIZE := by
            have := align16Spec_ge (rangeLen v)
            unfold align16Spec at hsfit
            unfold U32_SIZE at *
            omega
          have halign : align16 (rangeLen v) = align16Spec (rangeLen v) :=
            align16_eq_spec hl15
          have hoffmod : (offset + align16 (rangeLen v)) % U32_SIZE =
              offset + align16Spec (rangeLen v) := by
            rw [halign]
            exact Nat.mod_eq_of_lt hsfit
          simp only [Bool.false_eq_true, if_false, hrmod, hoffmod] at h
          by_cases hbound : offset ≤ offset + align16Spec (rangeLen v) ∧
              offset + align16Spec (rangeLen v) ≤ ROM_CAPACITY
          · rw [if_pos hbound] at h
            rcases k with _ | _ | _ | _
            · -- compressed
              rcases hc : codec input
                  (offset + align16Spec (rangeLen v) - offset) with _ | bs <;>
                rw [hc] at h
              · cases h
              · obtain ⟨hE, hW⟩ := ih (offset + align16Spec (rangeLen v))
                  (accE ++ [Entry.fromUncompressed v.1 v.2 offset])
                  (accW ++ [(offset, bs)]) E W
                  (fun e2 he2 => hwf e2 (by simp [he2])) hfin h
                refine ⟨?_, ?_⟩
                · rw [hE, compactEntries, hval, List.append_assoc,
                    List.singleton_append]
                  rfl
                · rw [hW, compactStarts, hval, List.map_append,
                    List.append_assoc]
                  rfl
            · -- decompressed
              by_cases hlen :
                  input.length = offset + align16Spec (rangeLen v) - offset
              · rw [if_pos hlen] at h
                obtain ⟨hE, hW⟩ := ih (offset + align16Spec (rangeLen v))
                  (accE ++ [Entry.fromUncompressed v.1 v.2 offset])
                  (accW ++ [(offset, input)]) E W
                  (fun e2 he2 => hwf e2 (by simp [he2])) hfin h
                refine ⟨?_, ?_⟩
                · rw [hE, compactEntries, hval, List.append_assoc,
                    List.singleton_append]
                  rfl
                · rw [hW, compactStarts, hval, List.map_append,
                    List.append_assoc]
                  rfl
              · rw [if_neg hlen] at h
                cases h
            · cases h
            · cases h
          · rw [if_neg hbound] at h
            cases h

/-- Claim C4: under the compact (squeeze) policy, output ranges are allocated
sequentially from a cursor initialized to 0: each resolved entry's allocated
length is its virtual length rounded up to the next multiple of 16
(`align16Spec`), its output range starts exactly where the previous allocation
ended, and the cursor advances by the rounded length (the recurrence of
`compactEntries` / `compactStarts`), so resolved entries are laid out with no
gaps beyond alignment padding.  Stated for well-formed (u32-valued) entries
with a final cursor below `2^32`, where the wrapping u32 cursor arithmetic of
the source is exact. -/
theorem claim_c4_compact (codec : List Nat → Nat → Option (List Nat))
    (rom : ZRom) (t : ZTable) (res : ZTable × List (Nat × List Nat))
    (ht : rom.table = some t)
    (hwf : ∀ e ∈ t.entries, entryWf e)
    (hfin : compactFinal t.entries 0 < U32_SIZE)
    (h : decompressRom codec rom false = some (.ok res)) :
    res.1.address = t.address ∧
    res.1.entries = compactEntries t.entries 0 ∧
    res.2.map Prod.fst = compactStarts t.entries 0 := by
  unfold decompressRom at h
  rw [ht] at h
  simp only at h
  rcases hgo : decompressGo codec rom.rom.image false t.entries 0 [] [] with
    _ | res2 <;> rw [hgo] at h
  · cases h
  · rcases res2 with err | ⟨E, W⟩
    · simp at h
    · simp only [Option.some.injEq, Except.ok.injEq] at h
      obtain ⟨hE, hW⟩ := decompressGo_compact_ok codec rom.rom.image
        t.entries 0 [] [] E W hwf hfin hgo
      subst h
      simp only [List.nil_append, List.map_nil] at hE hW
      exact ⟨rfl, hE, hW⟩

/-- A concrete rom for the C4 witness: two 16-byte `Decompressed` entries. -/
def c4WitnessRom : ZRom :=
  ⟨⟨List.replicate 0x60 0⟩,
   some ⟨0, [⟨0x10, 0x20, 0x40, 0⟩, ⟨0x20, 0x30, 0x50, 0⟩]⟩⟩

/-- Claim C4 witness: the theorem applied to a concrete two-entry rom under
the compact policy: allocations start at 0 and 0x10, with no gap. -/
theorem claim_c4_witness :
    c4WitnessRom.table =
      some ⟨0, [⟨0x10, 0x20, 0x40, 0⟩, ⟨0x20, 0x30, 0x50, 0⟩]⟩ ∧
    compactFinal [⟨0x10, 0x20, 0x40, 0⟩, ⟨0x20, 0x30, 0x50, 0⟩] 0 < U32_SIZE ∧
    decompressRom (fun _ d => some (List.replicate d 0)) c4WitnessRom false =
      some (.ok (⟨0, [⟨0x10, 0x20, 0, 0⟩, ⟨0x20, 0x30, 0x10, 0⟩]⟩,
        [(0, List.replicate 0x10 0), (0x10, List.replicate 0x10 0)])) ∧
    [⟨0x10, 0x20, 0, 0⟩, ⟨0x20, 0x30, 0x10, 0⟩] =
      compactEntries [⟨0x10, 0x20, 0x40, 0⟩, ⟨0x20, 0x30, 0x50, 0⟩] 0 ∧
    [0, 0x10] = compactStarts [⟨0x10, 0x20, 0x40, 0⟩, ⟨0x20, 0x30, 0x50, 0⟩] 0 := by
  have hrun : decompressRom (fun _ d => some (List.replicate d 0)) c4WitnessRom
      false =
      some (.ok (⟨0, [⟨0x10, 0x20, 0, 0⟩, ⟨0x20, 0x30, 0x10, 0⟩]⟩,
        [(0, List.replicate 0x10 0), (0x10, List.replicate 0x10 0)])) := by
    decide
  have h := claim_c4_compact (fun _ d => some (List.replicate d 0))
    c4WitnessRom ⟨0, [⟨0x10, 0x20, 0x40, 0⟩, ⟨0x20, 0x30, 0x50, 0⟩]⟩
    (⟨0, [⟨0x10, 0x20, 0, 0⟩, ⟨0x20, 0x30, 0x10, 0⟩]⟩,
     [(0, List.replicate 0x10 0), (0x10, List.replicate 0x10 0)])
    rfl (by decide) (by decide) hrun
  exact ⟨rfl, by decide, hrun, h.2.1, h.2.2⟩

theorem parseLoop_eof {img : List Nat} {begin c : Nat} {endO : Option Nat}
    {acc : List Entry} (hr : readEntryAt img c = none) :
    parseLoop img begin c endO acc = .error .ioError := by
  rw [parseLoop]
  split
  · rfl
  · next entry heq =>
    rw [hr] at heq
    cases heq

theorem parseLoop_resolve {img : List Nat} {begin c : Nat} {endO : Option Nat}
    {acc : List Entry} {e : Entry} (hr : readEntryAt img c = some e) :
    parseLoop img begin c endO acc =
      match (if e.virtualStart = begin
             then some (wsub64 e.virtualEnd HEAD_SIZE) else endO) with
      | some b =>
          if c ≥ b then .ok acc
          else parseLoop img begin (c + ENTRY_SIZE)
            (if e.virtualStart = begin
             then some (wsub64 e.virtualEnd HEAD_SIZE) else endO)
            (acc ++ [e])
      | none =>
          parseLoop img begin (c + ENTRY_SIZE)
            (if e.virtualStart = begin
             then some (wsub64 e.virtualEnd HEAD_SIZE) else endO)
            (acc ++ [e]) := by
  rw [parseLoop]
  split
  · next heq =>
    rw [hr] at heq
    cases heq
  · next entry heq =>
    rw [hr] at heq
    injection heq with h2
    subst h2
    rfl

theorem range'_map_cons (es : Nat → Entry) (i k : Nat) :
    (List.range' i (k + 1)).map es = es i :: (List.range' (i + 1) k).map es := by
  rw [List.range'_succ]
  rfl

/-- Once the stopping boundary `B` is fixed, the loop keeps reading entries
whose cursor is still below `B`, pushing each, until the cursor reaches the
position `start + 16 * n`. -/
theorem parseLoop_phase2 (img : List Nat) (begin start n B : Nat)
    (es : Nat → Entry) :
    ∀ k i acc, i + k = n →
      (∀ m, i ≤ m → m < n → readEntryAt img (start + 16 * m) = some (es m)) →
      (∀ m, i ≤ m → m < n → (es m).virtualStart ≠ begin) →
      (∀ m, i ≤ m → m < n → start + 16 * m < B) →
      parseLoop img begin (start + 16 * i) (some B) acc =
        parseLoop img begin (start + 16 * n) (some B)
          (acc ++ (List.range' i k).map es) := by
  intro k
  induction k with
  | zero =>
    intro i acc hik _ _ _
    have hi : i = n := by omega
    subst hi
    simp [List.range']
  | succ k ih =>
    intro i acc hik hdec hnb hlt
    have hi : i < n := by omega
    rw [parseLoop_resolve (hdec i (Nat.le_refl i) hi),
      if_neg (hnb i (Nat.le_refl i) hi)]
    dsimp only
    rw [if_neg (show ¬ start + 16 * i ≥ B by
      have := hlt i (Nat.le_refl i) hi; omega)]
    rw [show start + 16 * i + ENTRY_SIZE = start + 16 * (i + 1) by
      simp [ENTRY_SIZE]; ring]
    rw [ih (i + 1) (acc ++ [es i]) (by omega)
      (fun m hm1 hm2 => hdec m (by omega) hm2)
      (fun m hm1 hm2 => hnb m (by omega) hm2)
      (fun m hm1 hm2 => hlt m (by omega) hm2)]
    rw [range'_map_cons, List.append_assoc, List.singleton_append]

/-- Before any self-referential entry has been seen, the loop pushes every
entry; at index `j` the boundary gets fixed to
`wsub64 (es j).virtualEnd HEAD_SIZE = B` and the loop continues with it. -/
theorem parseLoop_phase1 (img : List Nat) (begin start j B : Nat)
    (es : Nat → Entry)
    (hjv : (es j).virtualStart = begin)
    (hjB : wsub64 (es j).virtualEnd HEAD_SIZE = B)
    (hjlt : start + 16 * j < B) :
    ∀ k i acc, i + k = j →
      (∀ m, i ≤ m → m ≤ j → readEntryAt img (start + 16 * m) = some (es m)) →
      (∀ m, i ≤ m → m < j → (es m).virtualStart ≠ begin) →
      parseLoop img begin (start + 16 * i) none acc =
        parseLoop img begin (start + 16 * (j + 1)) (some B)
          (acc ++ (List.range' i (k + 1)).map es) := by
  intro k
  induction k with
  | zero =>
    intro i acc hik hdec _
    have hi : i = j := by omega
    subst hi
    rw [parseLoop_resolve (hdec i (Nat.le_refl i) (Nat.le_refl i)),
      if_pos hjv, hjB]
    dsimp only
    rw [if_neg (show ¬ start + 16 * i ≥ B by omega)]
    rw [show start + 16 * i + ENTRY_SIZE = start + 16 * (i + 1) by
      simp [ENTRY_SIZE]; ring]
    rw [range'_map_cons]
    simp [List.range']
  | succ k ih =>
    intro i acc hik hdec hnb
    have hi : i < j := by omega
    rw [parseLoop_resolve (hdec i (Nat.le_refl i) (by omega)),
      if_neg (hnb i (Nat.le_refl i) hi)]
    dsimp only
    rw [show start + 16 * i + ENTRY_SIZE = start + 16 * (i + 1) by
      simp [ENTRY_SIZE]; ring]
    rw [ih (i + 1) (acc ++ [es i]) (by omega)
      (fun m hm1 hm2 => hdec m (by omega) hm2)
      (fun m hm1 hm2 => hnb m (by omega) hm2)]
    rw [range'_map_cons es i (k + 1),
      List.append_assoc, List.singleton_append]

/-- The complete run of the parse loop when the decoded entry stream has a
unique self-referential entry at index `j < n` whose boundary is
`start + 16 * n`: exactly the first `n` entries are collected and the entry
read at the boundary is discarded. -/
theorem parseLoop_run (img : List Nat) (begin start n j : Nat)
    (es : Nat → Entry)
    (hdec : ∀ i, i ≤ n → readEntryAt img (start + 16 * i) = some (es i))
    (hj : j < n)
    (hjv : (es j).virtualStart = begin)
    (hjB : wsub64 (es j).virtualEnd HEAD_SIZE = start + 16 * n)
    (hnb : ∀ i, i ≤ n → i ≠ j → (es i).virtualStart ≠ begin) :
    parseLoop img begin start none [] = .ok ((List.range n).map es) := by
  have h1 := parseLoop_phase1 img begin start j (start + 16 * n) es hjv hjB
    (by omega) j 0 [] (by omega)
    (fun m hm1 hm2 => hdec m (by omega))
    (fun m hm1 hm2 => hnb m (by omega) (by omega))
  rw [show start = start + 16 * 0 by omega, h1]
  rw [parseLoop_phase2 img begin start n (start + 16 * n) es (n - (j + 1))
    (j + 1) _ (by omega)
    (fun m hm1 hm2 => hdec m (by omega))
    (fun m hm1 hm2 => hnb m (by omega) (by omega))
    (fun m hm1 hm2 => by omega)]
  rw [parseLoop_resolve (hdec n (Nat.le_refl n)),
    if_neg (hnb n (Nat.le_refl n) (by omega))]
  dsimp only
  rw [if_pos (Nat.le_refl (start + 16 * n))]
  have hr : List.range' 0 (j + 1) ++ List.range' (j + 1) (n - (j + 1)) =
      List.range' 0 n := by
    have h2 := List.range'_append 0 (j + 1) (n - (j + 1)) 1
    rw [show 0 + 1 * (j + 1) = j + 1 by ring] at h2
    rw [h2, show n - (j + 1) + (j + 1) = n by omega]
  rw [List.nil_append, ← List.map_append, hr, ← List.range_eq_range']

/-- Same setup, but the input ends fewer than 16 bytes past the boundary: the
extra read at the boundary fails and the whole parse is an `io` error. -/
theorem parseLoop_run_truncated (img : List Nat) (begin start n j : Nat)
    (es : Nat → Entry)
    (hdec : ∀ i, i < n → readEntryAt img (start + 16 * i) = some (es i))
    (hj : j < n)
    (hjv : (es j).virtualStart = begin)
    (hjB : wsub64 (es j).virtualEnd HEAD_SIZE = start + 16 * n)
    (hnb : ∀ i, i < n → i ≠ j → (es i).virtualStart ≠ begin)
    (hshort : img.length < start + 16 * n + 16) :
    parseLoop img begin start none [] = .error .ioError := by
  have h1 := parseLoop_phase1 img begin start j (start + 16 * n) es hjv hjB
    (by omega) j 0 [] (by omega)
    (fun m hm1 hm2 => hdec m (by omega))
    (fun m hm1 hm2 => hnb m (by omega) (by omega))
  rw [show start = start + 16 * 0 by omega, h1]
  rw [parseLoop_phase2 img begin start n (start + 16 * n) es (n - (j + 1))
    (j + 1) _ (by omega)
    (fun m hm1 hm2 => hdec m (by omega))
    (fun m hm1 hm2 => hnb m (by omega) (by omega))
    (fun m hm1 hm2 => by omega)]
  have hnone : readEntryAt img (start + 16 * n) = none := by
    unfold readEntryAt
    rw [if_neg (by omega)]
  exact parseLoop_eof hnone

/-- Claim C2 (amended): during `Table::find`, entries are decoded sequentially
from the discovered offset plus the header size; every decoded entry whose
`virtual_start` equals the table begin virtual address (discovered offset +
header size + container head size) re-fixes the stopping boundary to that
entry's `virtual_end` minus the head size — with several such entries the most
recently decoded one governs, not the first — and parsing halts at the first
cursor (advancing 16 bytes per entry) at or past the currently fixed boundary,
discarding the entry read there.  When the matching entry is unique, at index
`j < n`, with boundary `start + 16 * n`, the parse succeeds with exactly the
first `n` entries: the parsed entry count equals
`(boundary - start offset) / 16`. -/
theorem claim_c2_table_parse (img : List Nat) (hdr : Header) (off n j : Nat)
    (es : Nat → Entry)
    (hhdr : findHeader img = .ok (some (hdr, off)))
    (hdec : ∀ i, i ≤ n →
      readEntryAt img (off + HEADER_SIZE + 16 * i) = some (es i))
    (hj : j < n)
    (hjv : (es j).virtualStart = HEAD_SIZE + (off + HEADER_SIZE))
    (hjB : wsub64 (es j).virtualEnd HEAD_SIZE = off + HEADER_SIZE + 16 * n)
    (hnb : ∀ i, i ≤ n → i ≠ j →
      (es i).virtualStart ≠ HEAD_SIZE + (off + HEADER_SIZE)) :
    tableFind img = .ok (some (⟨hdr, (List.range n).map es⟩, off)) ∧
    ((off + HEADER_SIZE + 16 * n) - (off + HEADER_SIZE)) / 16 = n := by
  refine ⟨?_, by omega⟩
  unfold tableFind
  rw [hhdr]
  dsimp only
  rw [parseLoop_run img (HEAD_SIZE + (off + HEADER_SIZE)) (off + HEADER_SIZE)
    n j es hdec hj hjv hjB hnb]

/-- Claim C10: once the boundary is fixed, one more 16-byte entry is always
read before the cursor-versus-boundary comparison breaks the loop, and that
entry is discarded; consequently, when the entry span ends fewer than 16 bytes
before end of input, `Table::find` fails with the truncated-read `io` error
even though all `n` table entries are present. -/
theorem claim_c10_extra_read (img : List Nat) (hdr : Header) (off n j : Nat)
    (es : Nat → Entry)
    (hhdr : findHeader img = .ok (some (hdr, off)))
    (hdec : ∀ i, i < n →
      readEntryAt img (off + HEADER_SIZE + 16 * i) = some (es i))
    (hj : j < n)
    (hjv : (es j).virtualStart = HEAD_SIZE + (off + HEADER_SIZE))
    (hjB : wsub64 (es j).virtualEnd HEAD_SIZE = off + HEADER_SIZE + 16 * n)
    (hnb : ∀ i, i < n → i ≠ j →
      (es i).virtualStart ≠ HEAD_SIZE + (off + HEADER_SIZE))
    (hshort : img.length < off + HEADER_SIZE + 16 * n + 16) :
    tableFind img = .error .ioError := by
  unfold tableFind
  rw [hhdr]
  dsimp only
  rw [parseLoop_run_truncated img (HEAD_SIZE + (off + HEADER_SIZE))
    (off + HEADER_SIZE) n j es hdec hj hjv hjB hnb hshort]

/-- Header bytes of the concrete parse images: the srd44 magic, its null
terminator, and zero padding up to `HEADER_SIZE`. -/
def demoHeaderBytes : List Nat := MAGIC_SRD44 ++ [0] ++ List.replicate 36 0

/-- The decoded entry stream of the C2/C10 concrete images. -/
def c2Es : Nat → Entry := fun i =>
  if i = 0 then ⟨0x1030, 0x1050, 0, 0⟩
  else if i = 1 then ⟨1, 2, 3, 4⟩
  else ⟨0, 0, 0, 0⟩

/-- A complete table image: header, the self-referential entry (boundary
`0x50`), one ordinary entry, and the discarded extra entry. -/
def c2Img : List Nat :=
  demoHeaderBytes ++ encodeEntry ⟨0x1030, 0x1050, 0, 0⟩ ++
  encodeEntry ⟨1, 2, 3, 4⟩ ++ encodeEntry ⟨0, 0, 0, 0⟩

/-- The same image truncated right at the boundary: both table entries are
present but no extra 16 bytes follow. -/
def c10Img : List Nat :=
  demoHeaderBytes ++ encodeEntry ⟨0x1030, 0x1050, 0, 0⟩ ++
  encodeEntry ⟨1, 2, 3, 4⟩

theorem c2Img_findHeader : findHeader c2Img = .ok (some (⟨.srd44, []⟩, 0)) := by
  have h0 : findOffsetGo c2Img 0 = some 0 := by
    rw [findOffsetGo, dif_pos (by decide : (0 : Nat) + 9 ≤ c2Img.length),
      if_pos (by decide : (c2Img.drop 0).take 9 = TABLE_MAGIC)]
  unfold findHeader
  rw [h0]
  decide

theorem c10Img_findHeader :
    findHeader c10Img = .ok (some (⟨.srd44, []⟩, 0)) := by
  have h0 : findOffsetGo c10Img 0 = some 0 := by
    rw [findOffsetGo, dif_pos (by decide : (0 : Nat) + 9 ≤ c10Img.length),
      if_pos (by decide : (c10Img.drop 0).take 9 = TABLE_MAGIC)]
  unfold findHeader
  rw [h0]
  decide

/-- Claim C2 witness: the amended theorem at the concrete image: two entries
parsed, boundary `0x50`, count `(0x50 - 0x30) / 16 = 2`. -/
theorem claim_c2_witness :
    findHeader c2Img = .ok (some (⟨.srd44, []⟩, 0)) ∧
    tableFind c2Img =
      .ok (some (⟨⟨.srd44, []⟩, (List.range 2).map c2Es⟩, 0)) ∧
    ((0 + HEADER_SIZE + 16 * 2) - (0 + HEADER_SIZE)) / 16 = 2 := by
  have h := claim_c2_table_parse c2Img ⟨.srd44, []⟩ 0 2 0 c2Es c2Img_findHeader
    (by decide) (by decide) (by decide) (by decide) (by decide)
  exact ⟨c2Img_findHeader, h.1, h.2⟩

/-- Claim C10 witness: the theorem at the truncated concrete image — both
entries are present yet the parse is an `io` error. -/
theorem claim_c10_witness :
    c10Img.length < 0 + HEADER_SIZE + 16 * 2 + 16 ∧
    tableFind c10Img = .error .ioError := by
  refine ⟨by decide, ?_⟩
  exact claim_c10_extra_read c10Img ⟨.srd44, []⟩ 0 2 0 c2Es c10Img_findHeader
    (by decide) (by decide) (by decide) (by decide) (by decide) (by decide)

/-- An image with two self-referential entries: the first fixes boundary
`0x60`, the second re-fixes it to `0x40`. -/
def c2CtrImg : List Nat :=
  demoHeaderBytes ++ encodeEntry ⟨0x1030, 0x1060, 0, 0⟩ ++
  encodeEntry ⟨0x1030, 0x1040, 0, 0⟩

theorem c2CtrImg_findHeader :
    findHeader c2CtrImg = .ok (some (⟨.srd44, []⟩, 0)) := by
  have h0 : findOffsetGo c2CtrImg 0 = some 0 := by
    rw [findOffsetGo, dif_pos (by decide : (0 : Nat) + 9 ≤ c2CtrImg.length),
      if_pos (by decide : (c2CtrImg.drop 0).take 9 = TABLE_MAGIC)]
  unfold findHeader
  rw [h0]
  decide

/-- Claim C2 counterexample: with two entries whose `virtual_start` equals the
table begin address, the boundary fixed by the *first* (`0x60`, which would
give `(0x60 - 0x30) / 16 = 3` parsed entries) does not govern: the second
matching entry re-fixes the boundary to `0x40` and the parse returns a single
entry, refuting the claim that the first such entry fixes the stopping
boundary and its count formula. -/
theorem claim_c2_counterexample :
    wsub64 0x1060 HEAD_SIZE = 0x60 ∧
    (0x60 - (0 + HEADER_SIZE)) / 16 = 3 ∧
    tableFind c2CtrImg =
      .ok (some (⟨⟨.srd44, []⟩, [⟨0x1030, 0x1060, 0, 0⟩]⟩, 0)) := by
  refine ⟨by decide, by decide, ?_⟩
  have hr1 : readEntryAt c2CtrImg (0 + HEADER_SIZE) =
      some ⟨0x1030, 0x1060, 0, 0⟩ := by decide
  have hr2 : readEntryAt c2CtrImg (0 + HEADER_SIZE + ENTRY_SIZE) =
      some ⟨0x1030, 0x1040, 0, 0⟩ := by decide
  have hloop : parseLoop c2CtrImg (HEAD_SIZE + (0 + HEADER_SIZE))
      (0 + HEADER_SIZE) none [] = .ok [⟨0x1030, 0x1060, 0, 0⟩] := by
    rw [parseLoop_resolve hr1, if_pos (by decide)]
    dsimp only
    rw [if_neg (show ¬ 0 + HEADER_SIZE ≥ wsub64 0x1060 HEAD_SIZE by decide)]
    rw [parseLoop_resolve hr2, if_pos (by decide)]
    dsimp only
    rw [if_pos (show 0 + HEADER_SIZE + ENTRY_SIZE ≥ wsub64 0x1040 HEAD_SIZE
      by decide)]
    rw [List.nil_append]
  unfold tableFind
  rw [c2CtrImg_findHeader]
  dsimp only
  rw [hloop]

end Zelda64
